import Mathlib

/-!
Verification of the `metric` telemetry library: a shallow embedding of its
Histogram (streaming approximate quantiles with adaptive bin merging) and
TimeSeries (rolling window with gap filling and time rounding), together with
proofs of the specified properties.  `float64` values are modelled as `ℚ`
(all arithmetic in the verified scenarios is exact), `time.Time` and
`time.Duration` as `Int` nanoseconds.
-/

namespace Metric

/-! ### Histogram (histogram.go)

```
type Bin struct { value float64; count float64 }
type Histogram struct { maxBins int; bins []Bin; total float64 }
```
-/

structure Bin where
  value : ℚ
  count : ℚ
deriving Repr, DecidableEq, Inhabited

structure Histogram where
  maxBins : Int
  bins : List Bin
  total : ℚ
deriving Repr, DecidableEq

def NewHistogram (maxBins : Int) : Histogram :=
  { maxBins := maxBins, bins := [], total := 0 }

/-- `Histogram.Add`'s insertion scan: walk the bins and place the new
unit-weight bin before the first bin whose value exceeds the sample,
appending at the end otherwise. -/
def insertBin (value : ℚ) : List Bin → List Bin
  | [] => [{ value := value, count := 1 }]
  | b :: rest =>
    if b.value > value then { value := value, count := 1 } :: b :: rest
    else b :: insertBin value rest

/-- Value of the `j`-th bin (0 when out of range), used by the trim scan. -/
def binVal (bins : List Bin) (j : Nat) : ℚ := (bins.getD j default).value

/-- The adjacent-pair selection scan of `Histogram.trim`:
`d := 0; i := 0; for j := 1; j < len(bins); j++ { if dv := bins[j].value - bins[j-1].value; dv < d || j == 1 { d = dv; i = j } }`. -/
def minGapIdx (bins : List Bin) : Nat :=
  ((List.range bins.length).foldl
    (fun di j =>
      if j = 0 then di
      else
        let dv := binVal bins j - binVal bins (j - 1)
        if dv < di.1 ∨ j = 1 then (dv, j) else di)
    ((0 : ℚ), (0 : Nat))).2

/-- Merge the pair `(bins[i-1], bins[i])`: the count is the sum, the value the
count-weighted mean.  Argument order follows the source: `a = bins[i-1]`,
`b = bins[i]`. -/
def mergeBins (a b : Bin) : Bin :=
  let count := b.count + a.count
  { value := (b.value * b.count + a.value * a.count) / count, count := count }

/-- One merge step of `Histogram.trim`:
`bins = append(bins[:i-1], bins[i:]...); bins[i-1] = merged`. -/
def trimMerge (i : Nat) (bins : List Bin) : List Bin :=
  let merged := mergeBins (bins.getD (i - 1) default) (bins.getD i default)
  (bins.take (i - 1) ++ bins.drop i).set (i - 1) merged

/-- The `for len(bins) > maxBins` loop of `Histogram.trim`.  Each pass removes
one bin, so `bins.length` is always enough fuel for the loop to reach its
exit condition (`trimLoop_length_le` below proves the bound). -/
def trimLoop : Nat → Int → List Bin → List Bin
  | 0, _, bins => bins
  | fuel + 1, maxB, bins =>
    if (bins.length : Int) > maxB then
      trimLoop fuel maxB (trimMerge (minGapIdx bins) bins)
    else bins

/-- `Histogram.trim`: replace `maxBins ≤ 0` by 100, then merge the closest
adjacent pair until the bin budget is met. -/
def Histogram.trim (h : Histogram) : Histogram :=
  let m : Int := if h.maxBins ≤ 0 then 100 else h.maxBins
  { h with maxBins := m, bins := trimLoop h.bins.length m h.bins }

/-- `Histogram.Add`: increment `total`, insert a unit bin at the sorted
position, then trim. -/
def Histogram.Add (h : Histogram) (value : ℚ) : Histogram :=
  Histogram.trim { h with total := h.total + 1, bins := insertBin value h.bins }

/-- `Histogram.bin`: `count := q * total`; walk the bins subtracting each
bin's count, returning the first bin where the running value becomes ≤ 0,
and the zero bin if none does. -/
def binWalk : ℚ → List Bin → Bin
  | _, [] => default
  | count, b :: rest =>
    if count - b.count ≤ 0 then b else binWalk (count - b.count) rest

def Histogram.bin (h : Histogram) (q : ℚ) : Bin := binWalk (q * h.total) h.bins

def Histogram.Quantile (h : Histogram) (q : ℚ) : ℚ := (h.bin q).value

/-- Per-quantile state of `Histogram.Quantiles`: the result slot and the
running counter; `none` models the not-a-number "found" sentinel. -/
def qstep (b : Bin) : ℚ × Option ℚ → ℚ × Option ℚ
  | (r, none) => (r, none)
  | (r, some c) =>
    if c - b.count ≤ 0 then (b.value, none) else (r, some (c - b.count))

/-- Outer bin loop of `Histogram.Quantiles` with its early break once every
requested quantile has been found. -/
def qloop : List Bin → List (ℚ × Option ℚ) → List (ℚ × Option ℚ)
  | [], st => st
  | b :: rest, st =>
    let st' := st.map (qstep b)
    if st'.all (fun e => e.2.isNone) then st' else qloop rest st'

/-- `Histogram.Quantiles`: one shared scan over the bins maintaining one
running counter per requested quantile. -/
def Histogram.Quantiles (h : Histogram) (qs : List ℚ) : List ℚ :=
  (qloop h.bins (qs.map (fun q => ((0 : ℚ), some (q * h.total))))).map Prod.fst

/-- `Histogram.Reset`: clear bins and total. -/
def Histogram.Reset (h : Histogram) : Histogram :=
  { h with bins := [], total := 0 }

/-- Run a whole sequence of `Add` calls from a fresh histogram. -/
def addAll (maxBins : Int) (vs : List ℚ) : Histogram :=
  vs.foldl Histogram.Add (NewHistogram maxBins)

example : (addAll 100 [1, 2, 3]).bins = [⟨1, 1⟩, ⟨2, 1⟩, ⟨3, 1⟩] := by decide
example : (addAll 100 [1, 2, 3]).Quantile (1/2) = 2 := by with_unfolding_all rfl
example : (addAll 2 [1, 2, 3]).bins = [⟨3/2, 2⟩, ⟨3, 1⟩] := by with_unfolding_all rfl

def oneTo100 : List ℚ := (List.range 100).map (fun i => (i + 1 : ℚ))

/-! ### Histogram: structural lemmas -/

theorem trimMerge_one (a b : Bin) (rest : List Bin) :
    trimMerge 1 (a :: b :: rest) = mergeBins a b :: rest := rfl

theorem trimMerge_cons (i : Nat) (hi : 1 ≤ i) (a : Bin) (l : List Bin) :
    trimMerge (i + 1) (a :: l) = a :: trimMerge i l := by
  obtain ⟨j, rfl⟩ := Nat.exists_eq_add_of_le hi
  simp only [trimMerge, List.getD_cons_succ, Nat.add_sub_cancel_left]
  cases l with
  | nil =>
    rw [List.take_of_length_le (by simp), List.set_eq_of_length_le (by simp)]
    simp [trimMerge, List.set_eq_of_length_le]
  | cons b l' =>
    simp only [List.take_succ_cons, List.drop_succ_cons, List.cons_append, List.set]
    simp [Nat.add_comm 1 j, Nat.add_sub_cancel]

theorem trimMerge_length (i : Nat) (bins : List Bin) (h1 : 1 ≤ i)
    (h2 : i < bins.length) : (trimMerge i bins).length = bins.length - 1 := by
  simp only [trimMerge, List.length_set, List.length_append, List.length_take,
    List.length_drop]
  omega

theorem minGapIdx_bounds (bins : List Bin) (h : 2 ≤ bins.length) :
    1 ≤ minGapIdx bins ∧ minGapIdx bins < bins.length := by
  have hstep : ∀ (l : List Nat) (acc : ℚ × Nat),
      (∀ j ∈ l, 1 ≤ j ∧ j < bins.length) →
      1 ≤ acc.2 → acc.2 < bins.length →
      1 ≤ (l.foldl (fun di j =>
        if j = 0 then di
        else
          let dv := binVal bins j - binVal bins (j - 1)
          if dv < di.1 ∨ j = 1 then (dv, j) else di) acc).2 ∧
      (l.foldl (fun di j =>
        if j = 0 then di
        else
          let dv := binVal bins j - binVal bins (j - 1)
          if dv < di.1 ∨ j = 1 then (dv, j) else di) acc).2 < bins.length := by
    intro l
    induction l with
    | nil => intro acc _ h1 h2; exact ⟨h1, h2⟩
    | cons j l ih =>
      intro acc hmem h1 h2
      simp only [List.foldl_cons]
      have hj := hmem j (List.mem_cons_self _ _)
      have hrest : ∀ k ∈ l, 1 ≤ k ∧ k < bins.length :=
        fun k hk => hmem k (List.mem_cons_of_mem _ hk)
      by_cases hj0 : j = 0
      · omega
      · simp only [hj0, if_false]
        by_cases hcond : binVal bins j - binVal bins (j - 1) < acc.1 ∨ j = 1
        · simp only [hcond, if_true]
          exact ih _ hrest hj.1 hj.2
        · simp only [hcond, if_false]
          exact ih _ hrest h1 h2
  have hrange : List.range bins.length = 0 :: 1 :: List.range' 2 (bins.length - 2) := by
    obtain ⟨k, hk⟩ : ∃ k, bins.length = k + 2 := ⟨bins.length - 2, by omega⟩
    rw [hk]
    simp [List.range_eq_range', List.range'_succ]
  unfold minGapIdx
  rw [hrange]
  simp only [List.foldl_cons, if_pos rfl]
  have h1ne : (1 : Nat) ≠ 0 := one_ne_zero
  simp only [h1ne, if_false, or_true, if_true]
  refine hstep _ _ ?_ (le_refl 1) (by omega)
  intro j hj
  rw [List.mem_range'] at hj
  omega

theorem trimLoop_length_le (fuel : Nat) (M : Int) (hM : 1 ≤ M) :
    ∀ bins : List Bin, (bins.length : Int) ≤ M + fuel →
      ((trimLoop fuel M bins).length : Int) ≤ M := by
  induction fuel with
  | zero => intro bins h; simpa [trimLoop] using h
  | succ fuel ih =>
    intro bins h
    rw [trimLoop]
    by_cases hlen : (bins.length : Int) > M
    · rw [if_pos hlen]
      have h2 : 2 ≤ bins.length := by omega
      obtain ⟨hi1, hi2⟩ := minGapIdx_bounds bins h2
      apply ih
      rw [trimMerge_length _ _ hi1 hi2]
      omega
    · rw [if_neg hlen]; omega

/-- After any sequence of `Add` calls the stored `maxBins` is the effective
budget and the bin count respects it. -/
def effMax (m0 : Int) : Int := if m0 ≤ 0 then 100 else m0

theorem effMax_pos (m0 : Int) : 1 ≤ effMax m0 := by
  unfold effMax; split <;> omega

theorem insertBin_length (v : ℚ) (bins : List Bin) :
    (insertBin v bins).length = bins.length + 1 := by
  induction bins with
  | nil => rfl
  | cons b rest ih =>
    rw [insertBin]
    split
    · simp
    · simp [ih]

/-! ### Histogram: the order, positivity and mass invariants -/

/-- The bin list is sorted ascending by value. -/
def binsSorted (bins : List Bin) : Prop :=
  bins.Pairwise (fun a b => a.value ≤ b.value)

/-- Every bin has positive count. -/
def binsPos (bins : List Bin) : Prop := ∀ b ∈ bins, 0 < b.count

/-- Total mass of the bins. -/
def sumCounts (bins : List Bin) : ℚ := (bins.map Bin.count).sum

theorem insertBin_mem (v : ℚ) (bins : List Bin) :
    ∀ x ∈ insertBin v bins, x ∈ bins ∨ x = ⟨v, 1⟩ := by
  induction bins with
  | nil => intro x hx; simp only [insertBin] at hx; simp at hx; right; exact hx
  | cons b rest ih =>
    intro x hx
    rw [insertBin] at hx
    split at hx
    · rcases List.mem_cons.mp hx with h | hx2
      · right; exact h
      · rcases List.mem_cons.mp hx2 with h | h
        · left; simp [h]
        · left; simp [h]
    · rcases List.mem_cons.mp hx with h | h
      · left; simp [h]
      · rcases ih x h with h' | h'
        · left; simp [h']
        · right; exact h'

theorem insertBin_sorted (v : ℚ) (bins : List Bin) (hs : binsSorted bins) :
    binsSorted (insertBin v bins) := by
  induction bins with
  | nil => simp [insertBin, binsSorted]
  | cons b rest ih =>
    rw [binsSorted, List.pairwise_cons] at hs
    rw [insertBin]
    split
    · rename_i hbv
      refine List.Pairwise.cons ?_ (List.Pairwise.cons hs.1 hs.2)
      intro x hx
      rcases List.mem_cons.mp hx with h | h
      · simp [h]; exact le_of_lt hbv
      · exact le_trans (le_of_lt hbv) (hs.1 x h)
    · rename_i hbv
      push_neg at hbv
      refine List.Pairwise.cons ?_ (ih hs.2)
      intro x hx
      rcases insertBin_mem v rest x hx with h | h
      · exact hs.1 x h
      · rw [h]; exact hbv

theorem insertBin_pos (v : ℚ) (bins : List Bin) (hp : binsPos bins) :
    binsPos (insertBin v bins) := by
  intro x hx
  rcases insertBin_mem v bins x hx with h | h
  · exact hp x h
  · rw [h]; norm_num

theorem sumCounts_insertBin (v : ℚ) (bins : List Bin) :
    sumCounts (insertBin v bins) = sumCounts bins + 1 := by
  induction bins with
  | nil => simp [insertBin, sumCounts]
  | cons b rest ih =>
    rw [insertBin]
    split
    · simp [sumCounts]; ring
    · simp only [sumCounts, List.map_cons, List.sum_cons] at ih ⊢
      rw [ih]; ring

theorem mergeBins_value_bounds (a b : Bin) (hab : a.value ≤ b.value)
    (ha : 0 < a.count) (hb : 0 < b.count) :
    a.value ≤ (mergeBins a b).value ∧ (mergeBins a b).value ≤ b.value := by
  have hc : 0 < b.count + a.count := by linarith
  constructor
  · rw [mergeBins, le_div_iff₀ hc]
    nlinarith
  · rw [mergeBins, div_le_iff₀ hc]
    nlinarith

theorem mergeBins_count (a b : Bin) : (mergeBins a b).count = b.count + a.count := rfl

/-- All invariants preserved in one pass of `trimMerge`, together with
preservation of lower bounds on the values (needed for the induction). -/
theorem trimMerge_invariants :
    ∀ (i : Nat) (bins : List Bin), 1 ≤ i → i < bins.length →
      binsSorted bins → binsPos bins →
      binsSorted (trimMerge i bins) ∧ binsPos (trimMerge i bins) ∧
      sumCounts (trimMerge i bins) = sumCounts bins ∧
      (∀ c : ℚ, (∀ x ∈ bins, c ≤ x.value) → ∀ x ∈ trimMerge i bins, c ≤ x.value) := by
  intro i
  induction i using Nat.strong_induction_on with
  | _ i ih =>
    intro bins hi1 hi2 hs hp
    match i, bins with
    | 1, a :: b :: rest =>
      rw [trimMerge_one]
      rw [binsSorted, List.pairwise_cons] at hs
      have hsrest := hs.2
      rw [List.pairwise_cons] at hsrest
      have hab : a.value ≤ b.value := hs.1 b (by simp)
      have hpa : 0 < a.count := hp a (by simp)
      have hpb : 0 < b.count := hp b (by simp)
      obtain ⟨hm1, hm2⟩ := mergeBins_value_bounds a b hab hpa hpb
      refine ⟨?_, ?_, ?_, ?_⟩
      · rw [binsSorted, List.pairwise_cons]
        exact ⟨fun x hx => le_trans hm2 (hsrest.1 x hx), hsrest.2⟩
      · intro x hx
        rcases List.mem_cons.mp hx with h | h
        · rw [h, mergeBins_count]; linarith
        · exact hp x (by simp [h])
      · simp [sumCounts, mergeBins_count]; ring
      · intro c hc x hx
        rcases List.mem_cons.mp hx with h | h
        · rw [h]; exact le_trans (hc a (by simp)) hm1
        · exact hc x (by simp [h])
    | j + 2, a :: l =>
      rw [trimMerge_cons (j + 1) (by omega)]
      rw [binsSorted, List.pairwise_cons] at hs
      have hlen : j + 1 < l.length := by simp only [List.length_cons] at hi2; omega
      have hpl : binsPos l := fun x hx => hp x (by simp [hx])
      obtain ⟨ihs, ihp, ihsum, ihlb⟩ :=
        ih (j + 1) (by omega) l (by omega) hlen hs.2 hpl
      refine ⟨?_, ?_, ?_, ?_⟩
      · rw [binsSorted, List.pairwise_cons]
        refine ⟨?_, ihs⟩
        intro x hx
        -- every value in the merged tail is bounded below by a.value
        have := ihlb a.value hs.1
        exact this x hx
      · intro x hx
        rcases List.mem_cons.mp hx with h | h
        · exact hp x (by simp [h])
        · exact ihp x h
      · have ihsum' : ((trimMerge (j + 1) l).map Bin.count).sum = (l.map Bin.count).sum := ihsum
        simp only [sumCounts, List.map_cons, List.sum_cons]
        rw [ihsum']
      · intro c hc x hx
        rcases List.mem_cons.mp hx with h | h
        · exact hc x (by simp [h])
        · exact ihlb c (fun y hy => hc y (by simp [hy])) x h

theorem trimLoop_invariants (fuel : Nat) (M : Int) (hM : 1 ≤ M) :
    ∀ bins : List Bin, binsSorted bins → binsPos bins →
      binsSorted (trimLoop fuel M bins) ∧ binsPos (trimLoop fuel M bins) ∧
      sumCounts (trimLoop fuel M bins) = sumCounts bins := by
  induction fuel with
  | zero => intro bins hs hp; exact ⟨hs, hp, rfl⟩
  | succ fuel ih =>
    intro bins hs hp
    rw [trimLoop]
    by_cases hlen : (bins.length : Int) > M
    · rw [if_pos hlen]
      have h2 : 2 ≤ bins.length := by omega
      obtain ⟨hi1, hi2⟩ := minGapIdx_bounds bins h2
      obtain ⟨hs', hp', hsum', _⟩ := trimMerge_invariants _ bins hi1 hi2 hs hp
      obtain ⟨rs, rp, rsum⟩ := ih _ hs' hp'
      exact ⟨rs, rp, by rw [rsum, hsum']⟩
    · rw [if_neg hlen]; exact ⟨hs, hp, rfl⟩

/-- The reachable-state invariant for a histogram built by `Add` calls. -/
def HInv (m0 : Int) (h : Histogram) : Prop :=
  (h.maxBins = m0 ∨ h.maxBins = effMax m0) ∧
  ((h.bins.length : Int) ≤ effMax m0) ∧
  binsSorted h.bins ∧ binsPos h.bins ∧
  sumCounts h.bins = h.total ∧ 0 ≤ h.total

theorem HInv_new (m0 : Int) : HInv m0 (NewHistogram m0) := by
  refine ⟨Or.inl rfl, ?_, List.Pairwise.nil, ?_, rfl, le_refl 0⟩
  · show ((List.length [] : Nat) : Int) ≤ effMax m0
    have := effMax_pos m0
    simp
    omega
  · intro b hb
    exact absurd hb (List.not_mem_nil b)

theorem HInv_add (m0 : Int) (h : Histogram) (v : ℚ) (hinv : HInv m0 h) :
    HInv m0 (h.Add v) := by
  obtain ⟨hmax, hlen, hs, hp, hsum, htot⟩ := hinv
  have hM : (if h.maxBins ≤ 0 then (100 : Int) else h.maxBins) = effMax m0 := by
    rcases hmax with h1 | h1 <;> rw [h1] <;> unfold effMax <;> split <;> omega
  have hM1 := effMax_pos m0
  have hs' := insertBin_sorted v h.bins hs
  have hp' := insertBin_pos v h.bins hp
  obtain ⟨rs, rp, rsum⟩ := trimLoop_invariants (insertBin v h.bins).length _ hM1 _ hs' hp'
  have hbins : (h.Add v).bins
      = trimLoop (insertBin v h.bins).length (effMax m0) (insertBin v h.bins) := by
    rw [Histogram.Add, Histogram.trim, hM]
  have htotal : (h.Add v).total = h.total + 1 := rfl
  have hmaxB : (h.Add v).maxBins = effMax m0 := by
    rw [Histogram.Add, Histogram.trim, hM]
  rw [HInv, hbins, htotal, hmaxB]
  refine ⟨Or.inr rfl, ?_, rs, rp, ?_, by linarith⟩
  · apply trimLoop_length_le _ _ hM1
    rw [insertBin_length]
    push_cast
    omega
  · rw [rsum, sumCounts_insertBin, hsum]

theorem HInv_addAll (m0 : Int) (vs : List ℚ) : HInv m0 (addAll m0 vs) := by
  rw [addAll]
  have : ∀ (h : Histogram), HInv m0 h → HInv m0 (vs.foldl Histogram.Add h) := by
    induction vs with
    | nil => intro h hh; exact hh
    | cons v vs ih => intro h hh; exact ih _ (HInv_add m0 h v hh)
  exact this _ (HInv_new m0)

/-! ### Histogram: the quantile walk -/

theorem binWalk_mem (bins : List Bin) :
    ∀ t : ℚ, bins ≠ [] → t ≤ sumCounts bins → binWalk t bins ∈ bins := by
  induction bins with
  | nil => intro t hne _; exact absurd rfl hne
  | cons b rest ih =>
    intro t _ ht
    rw [binWalk]
    by_cases hc : t - b.count ≤ 0
    · rw [if_pos hc]; simp
    · rw [if_neg hc]
      have hrest : rest ≠ [] := by
        rintro rfl
        simp [sumCounts] at ht
        exact hc (by linarith)
      have ht' : t - b.count ≤ sumCounts rest := by
        simp only [sumCounts, List.map_cons, List.sum_cons] at ht
        simp only [sumCounts]
        linarith
      exact List.mem_cons_of_mem _ (ih _ hrest ht')

theorem binWalk_mono (bins : List Bin) (hs : binsSorted bins) :
    ∀ t1 t2 : ℚ, t1 ≤ t2 → t2 ≤ sumCounts bins →
      (binWalk t1 bins).value ≤ (binWalk t2 bins).value := by
  induction bins with
  | nil => intro t1 t2 _ _; simp [binWalk]
  | cons b rest ih =>
    intro t1 t2 h12 h2
    rw [binsSorted, List.pairwise_cons] at hs
    rw [binWalk, binWalk]
    by_cases hc2 : t2 - b.count ≤ 0
    · rw [if_pos hc2, if_pos (by linarith)]
    · rw [if_neg hc2]
      have h2' : t2 - b.count ≤ sumCounts rest := by
        simp only [sumCounts, List.map_cons, List.sum_cons] at h2
        simp only [sumCounts]
        linarith
      have hrest : rest ≠ [] := by
        rintro rfl
        simp [sumCounts] at h2'
        exact hc2 (by linarith)
      by_cases hc1 : t1 - b.count ≤ 0
      · rw [if_pos hc1]
        exact hs.1 _ (binWalk_mem rest _ hrest h2')
      · rw [if_neg hc1]
        exact ih hs.2 _ _ (by linarith) h2'

/-! ### Histogram: `Quantiles` computes `Quantile` pointwise -/

/-- The trajectory of one per-quantile slot over a bin list (the outer loop
specialised to a single slot). -/
def qwalk : List Bin → ℚ × Option ℚ → ℚ × Option ℚ
  | [], e => e
  | b :: rest, e => qwalk rest (qstep b e)

theorem qwalk_found (bins : List Bin) (r : ℚ) : qwalk bins (r, none) = (r, none) := by
  induction bins with
  | nil => rfl
  | cons b rest ih => rw [qwalk, qstep]; exact ih

theorem qloop_eq_map_qwalk (bins : List Bin) :
    ∀ st : List (ℚ × Option ℚ), qloop bins st = st.map (qwalk bins) := by
  induction bins with
  | nil => intro st; simp [qloop, qwalk]
  | cons b rest ih =>
    intro st
    have hsplit : st.map (qwalk (b :: rest)) = (st.map (qstep b)).map (qwalk rest) := by
      rw [List.map_map]
      apply List.map_congr_left
      intro e _
      rfl
    rw [qloop]
    by_cases hall : (st.map (qstep b)).all (fun e => e.2.isNone)
    · simp only [hall, if_true]
      rw [hsplit]
      conv_lhs => rw [show st.map (qstep b) = (st.map (qstep b)).map id by simp]
      apply List.map_congr_left
      intro e he
      have hnone : e.2.isNone := by
        rw [List.all_eq_true] at hall
        exact hall _ he
      obtain ⟨r, c⟩ := e
      have hc : c = none := by
        cases c
        · rfl
        · simp at hnone
      rw [hc, id_eq, qwalk_found]
    · simp only [hall, if_false]
      rw [ih, hsplit]
      simp

theorem qwalk_fst_eq_binWalk (bins : List Bin) :
    ∀ t : ℚ, (qwalk bins ((0 : ℚ), some t)).1 = (binWalk t bins).value := by
  induction bins with
  | nil => intro t; rfl
  | cons b rest ih =>
    intro t
    rw [qwalk, qstep, binWalk]
    by_cases hc : t - b.count ≤ 0
    · rw [if_pos hc, if_pos hc, qwalk_found]
    · rw [if_neg hc, if_neg hc]
      exact ih _

/-! ### TimeSeries (timeseries.go)

`time.Time` and `time.Duration` are both modelled as `Int` nanoseconds.
`t.Truncate(d)` rounds down to a multiple of `d` and `t.Round(d)` rounds to
the nearest multiple with halfway values rounding up, both with the
nonnegative remainder Go's internal `div` produces, i.e. `Int.emod`.
-/

/-- Go `t.Truncate(d)`: round down to a multiple of `d` (the remainder of
Go's internal `div` is the nonnegative one, `Int.emod`, written `%` here). -/
def goTruncate (t d : Int) : Int := if d ≤ 0 then t else t - t % d

/-- Go `t.Round(d)`: round to the nearest multiple of `d`, halfway away from
zero (`lessThanHalf(r, d)` is `r+r < d`). -/
def goRound (t d : Int) : Int :=
  if d ≤ 0 then t
  else
    let r := t % d
    if r + r < d then t - r else t - r + d

structure TimePoint where
  time : Int
  value : ℚ
  count : Int
deriving Repr, DecidableEq, Inhabited

structure TimeSeries where
  data : List TimePoint
  interval : Int
  maxCount : Int
  aggregator : Option (TimePoint → TimePoint → TimePoint)
  useRawTime : Bool

def NewTimeSeries (interval maxCount : Int)
    (agg : Option (TimePoint → TimePoint → TimePoint)) : TimeSeries :=
  { data := [], interval := interval, maxCount := maxCount,
    aggregator := agg, useRawTime := false }

/-- `ts.roundTime(t)`: identity when `useRawTime`, otherwise
`t.Add(ts.interval / 2).Round(ts.interval)` (Duration division truncates
toward zero). -/
def TimeSeries.roundTime (ts : TimeSeries) (t : Int) : Int :=
  if ts.useRawTime then t else goRound (t + ts.interval.tdiv 2) ts.interval

/-- `ts.timeRound(t)`: `t.Truncate(ts.interval)`. -/
def TimeSeries.timeRound (ts : TimeSeries) (t : Int) : Int :=
  goTruncate t ts.interval

/-- `IntervalBetween`: `(timeRound(later) - timeRound(prev)) / interval`
(Duration division truncates toward zero). -/
def TimeSeries.IntervalBetween (ts : TimeSeries) (prev later : Int) : Int :=
  (ts.timeRound later - ts.timeRound prev).tdiv ts.interval

/-- `ts.data = ts.data[len(ts.data)-ts.maxCount+1:]` — the eviction step of
the gap loop, keeping the newest `maxCount - 1` points. -/
def evict (m : Int) (data : List TimePoint) : List TimePoint :=
  data.drop ((data.length : Int) - m + 1).toNat

/-- `ts.data[len(ts.data)-1].Time = ts.roundTime(...)`: replace the last
point's stored time by its rounded value (no-op on an empty list). -/
def TimeSeries.roundLast (ts : TimeSeries) (l : List TimePoint) : List TimePoint :=
  match l.getLast? with
  | none => []
  | some p => l.dropLast ++ [{ p with time := ts.roundTime p.time }]

/-- Replace the last element (`data[len(data)-1] = x`). -/
def setLast (l : List TimePoint) (x : TimePoint) : List TimePoint :=
  l.dropLast ++ [x]

/-- The `for i := range roll` loop of `addPoint` for `0 < roll < maxCount`:
`steps` counts the remaining iterations, `i` the current index.  Each
iteration evicts the oldest points if the buffer is full, then either appends
an empty gap-filling point at `last.Time + (i+1)·interval`, or — on the final
step — rounds the stored time of the current last point and appends the new
datum. -/
def TimeSeries.gapLoop (ts : TimeSeries) (lastT : Int) (datum : TimePoint)
    (roll : Int) : Nat → Nat → List TimePoint → List TimePoint
  | 0, _, data => data
  | steps + 1, i, data =>
    let data1 := if (data.length : Int) ≥ ts.maxCount then evict ts.maxCount data else data
    if (i : Int) = roll - 1 then
      ts.gapLoop lastT datum roll steps (i + 1) (ts.roundLast data1 ++ [datum])
    else
      ts.gapLoop lastT datum roll steps (i + 1)
        (data1 ++ [{ time := lastT + ((i : Int) + 1) * ts.interval, value := 0, count := 0 }])

/-- `TimeSeries.addPoint`. -/
def TimeSeries.addPoint (ts : TimeSeries) (datum : TimePoint) : TimeSeries :=
  match ts.data.getLast? with
  | none => { ts with data := ts.data ++ [datum] }
  | some last =>
    let roll := ts.IntervalBetween last.time datum.time
    if roll ≤ 0 then
      let repl := match ts.aggregator with
        | none => datum
        | some agg => agg last datum
      { ts with data := setLast ts.data repl }
    else if roll ≥ ts.maxCount then
      { ts with data := [datum] }
    else
      { ts with data := ts.gapLoop last.time datum roll roll.toNat 0 ts.data }

/-- `AddTime(t, v)`: wrap the value in a unit-count point. -/
def TimeSeries.AddTime (ts : TimeSeries) (t : Int) (v : ℚ) : TimeSeries :=
  ts.addPoint { time := t, value := v, count := 1 }

/-- Run a sequence of `AddTime` calls. -/
def addAllTimes (ts : TimeSeries) (xs : List (Int × ℚ)) : TimeSeries :=
  xs.foldl (fun s tv => s.AddTime tv.1 tv.2) ts

/-- `TimeSeries.Values`: copies times and values, then rewrites
`times[len(times)-1]`, which panics (`none`) on an empty series. -/
def TimeSeries.Values (ts : TimeSeries) : Option (List Int × List ℚ) :=
  let times := ts.data.map TimePoint.time
  let values := ts.data.map TimePoint.value
  if times.length = 0 then none
  else some (times.set (times.length - 1)
    (ts.roundTime (times.getD (times.length - 1) 0)), values)

/-- `TimeSeries.LastN(n)`: the newest `n` points with the final time rounded;
empty for `n ≤ 0` or an empty series. -/
def TimeSeries.LastN (ts : TimeSeries) (n : Int) : List Int × List ℚ :=
  if ts.data.length = 0 ∨ n ≤ 0 then ([], [])
  else
    let offset : Int := max ((ts.data.length : Int) - n) 0
    let sub := ts.data.drop offset.toNat
    let times := sub.map TimePoint.time
    let values := sub.map TimePoint.value
    (times.set (times.length - 1)
      (ts.roundTime (times.getD (times.length - 1) 0)), values)

/-- `TimeSeries.Last`: first entry of `LastN(1)`, or the zero time and zero
value on an empty series. -/
def TimeSeries.Last (ts : TimeSeries) : Int × ℚ :=
  match ts.LastN 1 with
  | ([], _) => (0, 0)
  | (t :: _, vs) => (t, vs.getD 0 0)

/-- `TimeSeries.After(t)`: points from the first stored point whose time is
`≥ t - interval/2` on, with the final time rounded. -/
def TimeSeries.After (ts : TimeSeries) (t : Int) : List Int × List ℚ :=
  let tick := t - ts.interval.tdiv 2
  match ts.data.findIdx? (fun d => decide (d.time ≥ tick)) with
  | none => ([], [])
  | some idx =>
    let sub := ts.data.drop idx
    let times := sub.map TimePoint.time
    let values := sub.map TimePoint.value
    (times.set (times.length - 1)
      (ts.roundTime (times.getD (times.length - 1) 0)), values)

/-- The entries `TimeSeries.String` renders: the timestamp used for each
point (the last one rounded) and its value, `none` for a placeholder
(`Count == 0`), which renders with no `value` field. -/
def TimeSeries.stringEntries (ts : TimeSeries) : List (Int × Option ℚ) :=
  ts.data.enum.map (fun p =>
    let t := if p.1 = ts.data.length - 1 then ts.roundTime p.2.time else p.2.time
    (t, if p.2.count = 0 then none else some p.2.value))

structure TimeSeriesSnapshot where
  Times : List Int
  Values : List ℚ
  Interval : Int
  MaxCount : Int
deriving Repr, DecidableEq

/-- `TimeSeries.Snapshot`: times (the last one rounded), values, interval and
maxCount. -/
def TimeSeries.Snapshot (ts : TimeSeries) : TimeSeriesSnapshot :=
  { Times := ts.data.enum.map (fun p =>
      if p.1 = ts.data.length - 1 then ts.roundTime p.2.time else p.2.time),
    Values := ts.data.map TimePoint.value,
    Interval := ts.interval,
    MaxCount := ts.maxCount }

/-! The stock aggregators.  Go `l.Time.After(r.Time)` is strict `>`,
`Before` is strict `<`. -/

def SUM (l r : TimePoint) : TimePoint :=
  let ts := if l.time > r.time then l.time else r.time
  { time := ts, value := l.value + r.value, count := l.count + r.count }

def AVG (l r : TimePoint) : TimePoint :=
  let ts := if l.time > r.time then l.time else r.time
  let totalCount := l.count + r.count
  if totalCount = 0 then { time := ts, value := 0, count := 0 }
  else
    { time := ts,
      value := (l.value * l.count + r.value * r.count) / (totalCount : ℚ),
      count := totalCount }

def LAST (l r : TimePoint) : TimePoint := if l.time > r.time then l else r

def FIRST (l r : TimePoint) : TimePoint := if l.time < r.time then l else r

def MIN (l r : TimePoint) : TimePoint := if l.value < r.value then l else r

def MAX (l r : TimePoint) : TimePoint := if l.value > r.value then l else r

/-! ### TimeSeries: suffix calculus for the gap-filling loop -/

/-- The newest `k` elements of a list (all of it when `k` exceeds the
length). -/
def lastK (k : Nat) (l : List TimePoint) : List TimePoint := l.drop (l.length - k)

theorem length_lastK (k : Nat) (l : List TimePoint) :
    (lastK k l).length = min k l.length := by
  simp [lastK]
  omega

theorem lastK_of_le (k : Nat) (l : List TimePoint) (h : l.length ≤ k) :
    lastK k l = l := by
  unfold lastK
  rw [Nat.sub_eq_zero_of_le h]
  exact List.drop_zero l

theorem lastK_lastK (j k : Nat) (l : List TimePoint) :
    lastK j (lastK k l) = lastK (min j k) l := by
  unfold lastK
  rw [List.drop_drop, List.length_drop]
  congr 1
  omega

theorem drop_eq_lastK (c : Nat) (l : List TimePoint) :
    l.drop c = lastK (l.length - c) l := by
  unfold lastK
  by_cases h : c ≤ l.length
  · congr 1; omega
  · rw [List.drop_eq_nil_of_le (by omega), List.drop_eq_nil_of_le (by omega)]

theorem lastK_concat (k : Nat) (hk : 1 ≤ k) (l : List TimePoint) (x : TimePoint) :
    lastK k (l ++ [x]) = lastK (k - 1) l ++ [x] := by
  unfold lastK
  rw [List.length_append, List.length_singleton]
  by_cases h : k ≤ l.length + 1
  · rw [List.drop_append_of_le_length (by omega)]
    congr 2
    omega
  · rw [show l.length + 1 - k = 0 by omega, show l.length - (k - 1) = 0 by omega]
    simp

theorem lastK_concat_add (k : Nat) (l : List TimePoint) (x : TimePoint)
    (_ : k ≤ l.length) : lastK k l ++ [x] = lastK (k + 1) (l ++ [x]) := by
  rw [lastK_concat (k + 1) (by omega), Nat.add_sub_cancel]

/-- The run of empty gap-filling points the loop appends:
`placeholderRun L d k` has times `L + d, …, L + k·d`. -/
def placeholderRun (L d : Int) (k : Nat) : List TimePoint :=
  (List.range k).map (fun (j : Nat) => { time := L + ((j : Int) + 1) * d, value := 0, count := 0 })

theorem placeholderRun_zero (L d : Int) : placeholderRun L d 0 = [] := rfl

theorem placeholderRun_succ (L d : Int) (k : Nat) :
    placeholderRun L d (k + 1)
      = placeholderRun L d k ++ [{ time := L + ((k : Int) + 1) * d, value := 0, count := 0 }] := by
  unfold placeholderRun
  rw [List.range_succ, List.map_append]
  rfl

theorem length_placeholderRun (L d : Int) (k : Nat) :
    (placeholderRun L d k).length = k := by
  simp [placeholderRun]

theorem roundLast_concat (ts : TimeSeries) (l : List TimePoint) (x : TimePoint) :
    ts.roundLast (l ++ [x]) = l ++ [{ x with time := ts.roundTime x.time }] := by
  rw [TimeSeries.roundLast]
  rw [List.getLast?_concat, List.dropLast_concat]

theorem length_roundLast (ts : TimeSeries) (l : List TimePoint) :
    (ts.roundLast l).length = l.length := by
  rcases List.eq_nil_or_concat l with rfl | ⟨l', x, rfl⟩
  · rfl
  · rw [List.concat_eq_append, roundLast_concat]; simp

theorem roundLast_lastK (ts : TimeSeries) (k : Nat) (hk : 1 ≤ k)
    (l : List TimePoint) (hl : l ≠ []) :
    lastK k (ts.roundLast l) = ts.roundLast (lastK k l) := by
  rcases List.eq_nil_or_concat l with rfl | ⟨l', x, rfl⟩
  · exact absurd rfl hl
  · rw [List.concat_eq_append, roundLast_concat, lastK_concat k hk, lastK_concat k hk,
      roundLast_concat]

theorem evict_eq_lastK (m : Int) (hm : 1 ≤ m) (data : List TimePoint)
    (h : (data.length : Int) ≥ m) : evict m data = lastK (m.toNat - 1) data := by
  rw [evict, drop_eq_lastK]
  congr 1
  omega

/-! ### TimeSeries: closed form of `addPoint` in the gap-filling branch -/

theorem gapLoop_closed (ts : TimeSeries) (L : Int) (datum : TimePoint)
    (roll : Int) (orig : List TimePoint)
    (h0 : 0 < roll) (hm : roll < ts.maxCount) (horig : orig ≠ []) :
    ∀ (steps i : Nat), (i : Int) + (steps : Int) = roll → 1 ≤ steps →
      ts.gapLoop L datum roll steps i
          (lastK (min (orig.length + i) ts.maxCount.toNat)
            (orig ++ placeholderRun L ts.interval i))
        = lastK (min (orig.length + roll.toNat) ts.maxCount.toNat)
            (ts.roundLast (orig ++ placeholderRun L ts.interval (roll.toNat - 1)) ++ [datum]) := by
  have hm2 : 2 ≤ ts.maxCount := by omega
  have hmN : (ts.maxCount.toNat : Int) = ts.maxCount := Int.toNat_of_nonneg (by omega)
  set mN := ts.maxCount.toNat with hmNdef
  have hmN2 : 2 ≤ mN := by omega
  have hn0 : 1 ≤ orig.length := List.length_pos.mpr horig
  -- the eviction guard and the placeholder/final append, uniformly
  have hstep1 : ∀ i : Nat,
      (if ((lastK (min (orig.length + i) mN) (orig ++ placeholderRun L ts.interval i)).length : Int)
          ≥ ts.maxCount then
        evict ts.maxCount (lastK (min (orig.length + i) mN) (orig ++ placeholderRun L ts.interval i))
      else lastK (min (orig.length + i) mN) (orig ++ placeholderRun L ts.interval i))
      = lastK (min (orig.length + i) (mN - 1)) (orig ++ placeholderRun L ts.interval i) := by
    intro i
    have hF : (orig ++ placeholderRun L ts.interval i).length = orig.length + i := by
      rw [List.length_append, length_placeholderRun]
    have hlen : (lastK (min (orig.length + i) mN) (orig ++ placeholderRun L ts.interval i)).length
        = min (orig.length + i) mN := by
      rw [length_lastK, hF]
      omega
    by_cases hc : orig.length + i ≥ mN
    · rw [if_pos (by rw [hlen]; omega)]
      rw [evict_eq_lastK _ (by omega) _ (by rw [hlen]; omega)]
      rw [lastK_lastK]
      congr 1
      omega
    · rw [if_neg (by rw [hlen]; omega)]
      congr 1
      omega
  intro steps
  induction steps with
  | zero => intro i _ h1; omega
  | succ s ih =>
    intro i hsum _
    rw [TimeSeries.gapLoop]
    rw [hstep1 i]
    by_cases hfin : (i : Int) = roll - 1
    · rw [if_pos hfin]
      have hs0 : s = 0 := by omega
      have hi : i = roll.toNat - 1 := by omega
      subst hs0
      rw [TimeSeries.gapLoop]
      have hk1 : 1 ≤ min (orig.length + i) (mN - 1) := le_min (by omega) (by omega)
      have hFne : orig ++ placeholderRun L ts.interval i ≠ [] := by
        intro hF
        exact horig (List.append_eq_nil.mp hF).1
      rw [← roundLast_lastK ts _ hk1 _ hFne]
      rw [lastK_concat_add _ _ _ (by
        rw [length_roundLast, List.length_append, length_placeholderRun]
        exact min_le_left _ _)]
      rw [hi]
      congr 1
      omega
    · rw [if_neg hfin]
      have hlt : i + 1 + s = roll.toNat := by omega
      have happ : lastK (min (orig.length + i) (mN - 1)) (orig ++ placeholderRun L ts.interval i)
            ++ [{ time := L + ((i : Int) + 1) * ts.interval, value := 0, count := 0 }]
          = lastK (min (orig.length + (i + 1)) mN) (orig ++ placeholderRun L ts.interval (i + 1)) := by
        rw [lastK_concat_add _ _ _ (by
          rw [List.length_append, length_placeholderRun]
          exact min_le_left _ _)]
        rw [placeholderRun_succ, ← List.append_assoc]
        congr 1
        omega
      rw [happ]
      exact ih (i + 1) (by push_cast; omega) (by omega)

/-- The gap-filling branch of `addPoint` in closed form: the stored data
becomes the newest `min (n + roll) maxCount` entries of: the old data,
followed by `roll - 1` placeholders at `last.time + k·interval`, with the
final entry of that list (the last placeholder, or the old last point when
`roll = 1`) given its rounded time, followed by the new datum. -/
theorem addPoint_gap_closed (ts : TimeSeries) (datum : TimePoint) (last : TimePoint)
    (hlast : ts.data.getLast? = some last)
    (h0 : 0 < ts.IntervalBetween last.time datum.time)
    (hm : ts.IntervalBetween last.time datum.time < ts.maxCount)
    (hlen : (ts.data.length : Int) ≤ ts.maxCount) :
    (ts.addPoint datum).data
      = lastK (min (ts.data.length + (ts.IntervalBetween last.time datum.time).toNat) ts.maxCount.toNat)
          (ts.roundLast (ts.data ++ placeholderRun last.time ts.interval
              ((ts.IntervalBetween last.time datum.time).toNat - 1)) ++ [datum]) := by
  set roll := ts.IntervalBetween last.time datum.time with hroll
  have hne : ts.data ≠ [] := by
    intro h
    rw [h] at hlast
    simp at hlast
  rw [TimeSeries.addPoint, hlast]
  simp only
  rw [if_neg (by omega), if_neg (by omega)]
  have hinit : ts.data
      = lastK (min (ts.data.length + 0) ts.maxCount.toNat)
          (ts.data ++ placeholderRun last.time ts.interval 0) := by
    rw [placeholderRun_zero, List.append_nil, Nat.add_zero]
    rw [lastK_of_le _ _ (by omega)]
  conv_lhs => rw [hinit]
  exact gapLoop_closed ts last.time datum roll ts.data h0 hm hne roll.toNat 0
    (by push_cast; omega) (by omega)

/-! ### Time arithmetic: truncation, rounding, bucket counting -/

theorem goTruncate_sub_eq (t1 t2 d : Int) (hd : 0 < d) :
    goTruncate t2 d - goTruncate t1 d = d * (t2 / d - t1 / d) := by
  unfold goTruncate
  rw [if_neg (by omega), if_neg (by omega)]
  have h1 := Int.ediv_add_emod t1 d
  have h2 := Int.ediv_add_emod t2 d
  ring_nf
  ring_nf at h1 h2
  linarith

theorem goTruncate_add_mul (t k d : Int) (hd : 0 < d) :
    goTruncate (t + k * d) d = goTruncate t d + k * d := by
  unfold goTruncate
  rw [if_neg (by omega), if_neg (by omega)]
  have h : (t + k * d) % d = t % d := by simp [Int.add_mul_emod_self]
  rw [h]
  ring

theorem goTruncate_le_self (t d : Int) (hd : 0 < d) : goTruncate t d ≤ t := by
  unfold goTruncate
  rw [if_neg (by omega)]
  have := Int.emod_nonneg t (by omega : d ≠ 0)
  omega

theorem lt_goTruncate_add (t d : Int) (hd : 0 < d) : t < goTruncate t d + d := by
  unfold goTruncate
  rw [if_neg (by omega)]
  have := Int.emod_lt_of_pos t hd
  omega

/-- `IntervalBetween` counts whole buckets: the difference of the truncated
times is exactly `IntervalBetween · interval`. -/
theorem IntervalBetween_mul (ts : TimeSeries) (t1 t2 : Int) (hd : 0 < ts.interval) :
    goTruncate t2 ts.interval - goTruncate t1 ts.interval
      = ts.IntervalBetween t1 t2 * ts.interval := by
  rw [TimeSeries.IntervalBetween, TimeSeries.timeRound, TimeSeries.timeRound]
  rw [goTruncate_sub_eq t1 t2 ts.interval hd]
  rw [Int.mul_tdiv_cancel_left _ (by omega : ts.interval ≠ 0)]
  ring

/-- A raw time jump of at least `m·interval` spans at least `m` buckets. -/
theorem IntervalBetween_ge_of_jump (ts : TimeSeries) (t1 t2 m : Int)
    (hd : 0 < ts.interval) (hjump : t2 - t1 ≥ m * ts.interval) :
    ts.IntervalBetween t1 t2 ≥ m := by
  have h1a := Int.emod_nonneg t1 (by omega : ts.interval ≠ 0)
  have h1b := Int.emod_lt_of_pos t1 hd
  have h2a := Int.emod_nonneg t2 (by omega : ts.interval ≠ 0)
  have h2b := Int.emod_lt_of_pos t2 hd
  have hdiff : goTruncate t2 ts.interval - goTruncate t1 ts.interval
      ≥ m * ts.interval - ts.interval + 1 := by
    unfold goTruncate
    rw [if_neg (by omega), if_neg (by omega)]
    omega
  rw [IntervalBetween_mul ts t1 t2 hd] at hdiff
  by_contra hlt
  push_neg at hlt
  have hmul : ts.IntervalBetween t1 t2 * ts.interval ≤ (m - 1) * ts.interval := by
    apply mul_le_mul_of_nonneg_right _ (by omega)
    omega
  have hring : (m - 1) * ts.interval = m * ts.interval - ts.interval := by ring
  omega

/-- The rounded time never moves a timestamp backwards. -/
theorem roundTime_ge_self (ts : TimeSeries) (t : Int) (hd : 0 < ts.interval) :
    t ≤ ts.roundTime t := by
  rw [TimeSeries.roundTime]
  split
  · exact le_refl t
  · set d := ts.interval with hdd
    have he : d.tdiv 2 = d / 2 := by rw [Int.tdiv_eq_ediv] <;> omega
    set x := t + d.tdiv 2 with hx
    have hra := Int.emod_nonneg x (by omega : d ≠ 0)
    have hrb := Int.emod_lt_of_pos x hd
    rw [goRound, if_neg (by omega)]
    dsimp only
    split
    · rename_i hlt
      omega
    · omega

/-- The non-raw rounded time is either the bucket's own boundary or the next
one. -/
theorem roundTime_cases (ts : TimeSeries) (t : Int) (hd : 0 < ts.interval)
    (hraw : ts.useRawTime = false) :
    ts.roundTime t = goTruncate t ts.interval ∨
    ts.roundTime t = goTruncate t ts.interval + ts.interval := by
  rw [TimeSeries.roundTime, hraw]
  simp only [Bool.false_eq_true, if_false]
  set d := ts.interval with hdd
  set e := d.tdiv 2 with hedef
  have he : e = d / 2 := by rw [hedef, Int.tdiv_eq_ediv] <;> omega
  have he2 : 0 ≤ e ∧ 2 * e ≤ d ∧ d ≤ 2 * e + 1 := by omega
  set f := t % d with hf
  have hfa : 0 ≤ f := Int.emod_nonneg t (by omega : d ≠ 0)
  have hfb : f < d := Int.emod_lt_of_pos t hd
  have hq : t = d * (t / d) + f := (Int.ediv_add_emod t d).symm
  have hte : t + e = (f + e) + d * (t / d) := by omega
  have hmod2 : (t + e) % d = (f + e) % d := by
    rw [hte]
    simp [Int.add_mul_emod_self_left]
  by_cases hcross : f + e < d
  · have hmod3 : (t + e) % d = f + e := by
      rw [hmod2]
      exact Int.emod_eq_of_lt (by omega) hcross
    rw [goRound, if_neg (by omega)]
    dsimp only
    rw [hmod3]
    by_cases hhalf : f + e + (f + e) < d
    · rw [if_pos hhalf]
      unfold goTruncate
      rw [if_neg (show ¬d ≤ 0 by omega)]
      left; omega
    · rw [if_neg hhalf]
      unfold goTruncate
      rw [if_neg (show ¬d ≤ 0 by omega)]
      right; omega
  · have hmod3 : (t + e) % d = f + e - d := by
      rw [hmod2]
      have h1 : (f + e) % d = (f + e - d) % d := by
        conv_lhs => rw [show (f + e) = (f + e - d) + d * 1 by ring]
        rw [Int.add_mul_emod_self_left]
      rw [h1]
      apply Int.emod_eq_of_lt <;> omega
    rw [goRound, if_neg (by omega)]
    dsimp only
    rw [hmod3, if_pos (show f + e - d + (f + e - d) < d by omega)]
    unfold goTruncate
    rw [if_neg (show ¬d ≤ 0 by omega)]
    right
    omega

/-- With an even interval (`2 ∣ interval`, e.g. any whole number of seconds
in nanoseconds) the non-raw rounding is exactly the next boundary. -/
theorem roundTime_eq_next (ts : TimeSeries) (t : Int) (hd : 0 < ts.interval)
    (hraw : ts.useRawTime = false) (hev : 2 ∣ ts.interval) :
    ts.roundTime t = goTruncate t ts.interval + ts.interval := by
  rw [TimeSeries.roundTime, hraw]
  simp only [Bool.false_eq_true, if_false]
  set d := ts.interval with hdd
  set e := d.tdiv 2 with hedef
  have he : e = d / 2 := by rw [hedef, Int.tdiv_eq_ediv] <;> omega
  have he2 : 2 * e = d := by omega
  set f := t % d with hf
  have hfa : 0 ≤ f := Int.emod_nonneg t (by omega : d ≠ 0)
  have hfb : f < d := Int.emod_lt_of_pos t hd
  have hq : t = d * (t / d) + f := (Int.ediv_add_emod t d).symm
  have hte : t + e = (f + e) + d * (t / d) := by omega
  have hmod2 : (t + e) % d = (f + e) % d := by
    rw [hte]
    simp [Int.add_mul_emod_self_left]
  by_cases hcross : f + e < d
  · have hmod3 : (t + e) % d = f + e := by
      rw [hmod2]
      exact Int.emod_eq_of_lt (by omega) hcross
    rw [goRound, if_neg (by omega)]
    dsimp only
    rw [hmod3, if_neg (show ¬(f + e + (f + e) < d) by omega)]
    unfold goTruncate
    rw [if_neg (show ¬d ≤ 0 by omega)]
    omega
  · have hmod3 : (t + e) % d = f + e - d := by
      rw [hmod2]
      have h1 : (f + e) % d = (f + e - d) % d := by
        conv_lhs => rw [show (f + e) = (f + e - d) + d * 1 by ring]
        rw [Int.add_mul_emod_self_left]
      rw [h1]
      apply Int.emod_eq_of_lt <;> omega
    rw [goRound, if_neg (by omega)]
    dsimp only
    rw [hmod3, if_pos (show f + e - d + (f + e - d) < d by omega)]
    unfold goTruncate
    rw [if_neg (show ¬d ≤ 0 by omega)]
    omega

/-! ### `addPoint`: the four branches -/

theorem addPoint_empty (ts : TimeSeries) (datum : TimePoint) (h : ts.data = []) :
    (ts.addPoint datum).data = [datum] := by
  rw [TimeSeries.addPoint, h]
  rfl

theorem addPoint_roll_nonpos (ts : TimeSeries) (datum last : TimePoint)
    (hlast : ts.data.getLast? = some last)
    (hroll : ts.IntervalBetween last.time datum.time ≤ 0) :
    (ts.addPoint datum).data = setLast ts.data
      (match ts.aggregator with
       | none => datum
       | some agg => agg last datum) := by
  rw [TimeSeries.addPoint, hlast]
  simp only
  rw [if_pos hroll]

theorem addPoint_reset (ts : TimeSeries) (datum last : TimePoint)
    (hlast : ts.data.getLast? = some last)
    (hroll : ts.IntervalBetween last.time datum.time ≥ ts.maxCount)
    (hm : 0 < ts.maxCount) :
    (ts.addPoint datum).data = [datum] := by
  rw [TimeSeries.addPoint, hlast]
  simp only
  rw [if_neg (by omega), if_pos hroll]

theorem addPoint_interval (ts : TimeSeries) (p : TimePoint) :
    (ts.addPoint p).interval = ts.interval := by
  rw [TimeSeries.addPoint]
  cases ts.data.getLast? with
  | none => rfl
  | some last =>
    simp only
    split_ifs <;> rfl

theorem addPoint_maxCount (ts : TimeSeries) (p : TimePoint) :
    (ts.addPoint p).maxCount = ts.maxCount := by
  rw [TimeSeries.addPoint]
  cases ts.data.getLast? with
  | none => rfl
  | some last =>
    simp only
    split_ifs <;> rfl

theorem addPoint_aggregator (ts : TimeSeries) (p : TimePoint) :
    (ts.addPoint p).aggregator = ts.aggregator := by
  rw [TimeSeries.addPoint]
  cases ts.data.getLast? with
  | none => rfl
  | some last =>
    simp only
    split_ifs <;> rfl

theorem addPoint_useRawTime (ts : TimeSeries) (p : TimePoint) :
    (ts.addPoint p).useRawTime = ts.useRawTime := by
  rw [TimeSeries.addPoint]
  cases ts.data.getLast? with
  | none => rfl
  | some last =>
    simp only
    split_ifs <;> rfl

/-! ### Query operations: the reported last timestamp -/

theorem concat_set {α : Type} (l : List α) (y x : α) :
    (l ++ [y]).set l.length x = l ++ [x] := by
  induction l with
  | nil => rfl
  | cons a t ih => simpa using ih

theorem concat_getD {α : Type} (l : List α) (y d0 : α) :
    (l ++ [y]).getD l.length d0 = y := by
  induction l with
  | nil => rfl
  | cons a t ih => simpa using ih

theorem enum_concat {α : Type} (l : List α) (x : α) :
    (l ++ [x]).enum = l.enum ++ [(l.length, x)] := by
  rw [List.enum_append]
  rfl

theorem getLast?_concat_self {l : List TimePoint} {p : TimePoint}
    (h : l.getLast? = some p) : l = l.dropLast ++ [p] := by
  rcases List.eq_nil_or_concat l with hnil | ⟨l', x, hcat⟩
  · rw [hnil] at h; simp at h
  · rw [List.concat_eq_append] at hcat
    have hx : x = p := by
      rw [hcat, List.getLast?_concat] at h
      exact Option.some_injective _ h
    rw [hcat, List.dropLast_concat, hx]

theorem getLast?_drop_of_lt (l : List TimePoint) (p : TimePoint) (k : Nat)
    (h : l.getLast? = some p) (hk : k < l.length) :
    (l.drop k).getLast? = some p := by
  have hcat := getLast?_concat_self h
  have hlen : l.length = l.dropLast.length + 1 := by
    rw [hcat]; simp
  rw [hcat, List.drop_append_of_le_length (by omega), List.getLast?_concat]

theorem drop_pred_of_getLast? (l : List TimePoint) (p : TimePoint)
    (h : l.getLast? = some p) : l.drop (l.length - 1) = [p] := by
  obtain ⟨A, rfl⟩ : ∃ A, l = A ++ [p] := ⟨l.dropLast, getLast?_concat_self h⟩
  rw [show (A ++ [p]).length - 1 = A.length by simp]
  rw [List.drop_append_of_le_length (le_refl _)]
  simp

/-- The shared tail of `Values`, `LastN` and `After`: copy the times, then
replace the final entry by its rounded value. -/
theorem map_time_set_round (ts : TimeSeries) (sub : List TimePoint) (p : TimePoint)
    (h : sub.getLast? = some p) :
    (sub.map TimePoint.time).set ((sub.map TimePoint.time).length - 1)
        (ts.roundTime ((sub.map TimePoint.time).getD ((sub.map TimePoint.time).length - 1) 0))
      = (sub.map TimePoint.time).dropLast ++ [ts.roundTime p.time] := by
  have hcat := getLast?_concat_self h
  rw [hcat]
  simp only [List.map_append, List.map_cons, List.map_nil, List.length_append,
    List.length_map, List.length_cons, List.length_nil]
  rw [show sub.dropLast.length + (0 + 1) - 1 = (sub.dropLast.map TimePoint.time).length by simp]
  rw [concat_getD, concat_set, List.dropLast_concat]

theorem Values_eq (ts : TimeSeries) (last : TimePoint)
    (hlast : ts.data.getLast? = some last) :
    ts.Values = some ((ts.data.map TimePoint.time).dropLast ++ [ts.roundTime last.time],
      ts.data.map TimePoint.value) := by
  have hne : ts.data ≠ [] := by
    intro h; rw [h] at hlast; simp at hlast
  rw [TimeSeries.Values]
  rw [if_neg (by simp [hne]), map_time_set_round ts ts.data last hlast]

theorem LastN_eq (ts : TimeSeries) (last : TimePoint) (n : Int)
    (hlast : ts.data.getLast? = some last) (hn : 0 < n) :
    ts.LastN n
      = (((ts.data.drop (max ((ts.data.length : Int) - n) 0).toNat).map TimePoint.time).dropLast
            ++ [ts.roundTime last.time],
         (ts.data.drop (max ((ts.data.length : Int) - n) 0).toNat).map TimePoint.value) := by
  have hne : ts.data ≠ [] := by
    intro h; rw [h] at hlast; simp at hlast
  have hlen : ts.data.length ≠ 0 := by
    intro h; exact hne (List.eq_nil_of_length_eq_zero h)
  have hklt : (max ((ts.data.length : Int) - n) 0).toNat < ts.data.length := by omega
  rw [TimeSeries.LastN, if_neg (by push_neg; exact ⟨hlen, by omega⟩)]
  dsimp only
  rw [map_time_set_round ts _ last (getLast?_drop_of_lt ts.data last _ hlast hklt)]

theorem Last_eq (ts : TimeSeries) (last : TimePoint)
    (hlast : ts.data.getLast? = some last) :
    ts.Last = (ts.roundTime last.time, last.value) := by
  have hne : ts.data ≠ [] := by
    intro h; rw [h] at hlast; simp at hlast
  have hlen : 1 ≤ ts.data.length := List.length_pos.mpr hne
  have h1 := LastN_eq ts last 1 hlast (by norm_num)
  have hk : (max ((ts.data.length : Int) - 1) 0).toNat = ts.data.length - 1 := by omega
  rw [hk, drop_pred_of_getLast? ts.data last hlast] at h1
  rw [TimeSeries.Last, h1]
  rfl

theorem After_empty (ts : TimeSeries) (t : Int) (h : ts.data = []) :
    ts.After t = ([], []) := by
  rw [TimeSeries.After, h]
  rfl

theorem findIdx?_go_lt {α : Type} (l : List α) (f : α → Bool) :
    ∀ (i idx : Nat), l.findIdx? f i = some idx → idx < i + l.length := by
  induction l with
  | nil => intro i idx h; simp [List.findIdx?] at h
  | cons a t ih =>
    intro i idx h
    rw [List.findIdx?_cons] at h
    by_cases hfa : f a
    · rw [if_pos hfa] at h
      have := Option.some_injective _ h
      simp only [List.length_cons]
      omega
    · rw [if_neg hfa] at h
      have := ih (i + 1) idx h
      simp only [List.length_cons]
      omega

theorem findIdx?_lt_length {α : Type} (l : List α) (f : α → Bool) (idx : Nat)
    (h : l.findIdx? f = some idx) : idx < l.length := by
  have := findIdx?_go_lt l f 0 idx h
  omega

theorem After_eq (ts : TimeSeries) (last : TimePoint) (t : Int) (idx : Nat)
    (hlast : ts.data.getLast? = some last)
    (hidx : ts.data.findIdx? (fun d => decide (d.time ≥ t - ts.interval.tdiv 2)) = some idx) :
    ts.After t
      = (((ts.data.drop idx).map TimePoint.time).dropLast ++ [ts.roundTime last.time],
         (ts.data.drop idx).map TimePoint.value) := by
  have hklt : idx < ts.data.length := findIdx?_lt_length _ _ _ hidx
  rw [TimeSeries.After]
  rw [hidx]
  dsimp only
  rw [map_time_set_round ts _ last (getLast?_drop_of_lt ts.data last _ hlast hklt)]

theorem entries_concat (ts : TimeSeries) (A : List TimePoint) (p : TimePoint) :
    (A ++ [p]).enum.map (fun q =>
        ((if q.1 = (A ++ [p]).length - 1 then ts.roundTime q.2.time else q.2.time),
         if q.2.count = 0 then none else some q.2.value))
      = A.map (fun q => (q.time, if q.count = 0 then none else some q.value))
        ++ [(ts.roundTime p.time, if p.count = 0 then none else some p.value)] := by
  rw [enum_concat, List.map_append]
  congr 1
  · calc A.enum.map (fun q =>
          ((if q.1 = (A ++ [p]).length - 1 then ts.roundTime q.2.time else q.2.time),
           if q.2.count = 0 then none else some q.2.value))
        = A.enum.map ((fun q => (q.time, if q.count = 0 then none else some q.value))
            ∘ Prod.snd) := by
          apply List.map_congr_left
          intro q hq
          have hqlt : q.1 < A.length := by
            have := List.fst_lt_of_mem_enum hq
            simpa using this
          have hne : q.1 ≠ (A ++ [p]).length - 1 := by simp; omega
          rw [if_neg hne]
          rfl
      _ = (A.enum.map Prod.snd).map
            (fun q => (q.time, if q.count = 0 then none else some q.value)) := by
          rw [List.map_map]
      _ = A.map (fun q => (q.time, if q.count = 0 then none else some q.value)) := by
          rw [List.enum_map_snd]
  · simp only [List.map_cons, List.map_nil]
    rw [if_pos (by simp)]

theorem stringEntries_eq (ts : TimeSeries) (last : TimePoint)
    (hlast : ts.data.getLast? = some last) :
    ts.stringEntries
      = ts.data.dropLast.map (fun p => (p.time, if p.count = 0 then none else some p.value))
        ++ [(ts.roundTime last.time, if last.count = 0 then none else some last.value)] := by
  have hcat := getLast?_concat_self hlast
  rw [TimeSeries.stringEntries]
  conv_lhs => rw [hcat]
  exact entries_concat ts ts.data.dropLast last

theorem times_concat (ts : TimeSeries) (A : List TimePoint) (p : TimePoint) :
    (A ++ [p]).enum.map (fun q =>
        if q.1 = (A ++ [p]).length - 1 then ts.roundTime q.2.time else q.2.time)
      = A.map TimePoint.time ++ [ts.roundTime p.time] := by
  rw [enum_concat, List.map_append]
  congr 1
  · calc A.enum.map (fun q =>
          if q.1 = (A ++ [p]).length - 1 then ts.roundTime q.2.time else q.2.time)
        = A.enum.map (TimePoint.time ∘ Prod.snd) := by
          apply List.map_congr_left
          intro q hq
          have hqlt : q.1 < A.length := by
            have := List.fst_lt_of_mem_enum hq
            simpa using this
          have hne : q.1 ≠ (A ++ [p]).length - 1 := by simp; omega
          rw [if_neg hne]
          rfl
      _ = (A.enum.map Prod.snd).map TimePoint.time := by rw [List.map_map]
      _ = A.map TimePoint.time := by rw [List.enum_map_snd]
  · simp only [List.map_cons, List.map_nil]
    rw [if_pos (by simp)]

theorem snapshot_times_eq (ts : TimeSeries) (last : TimePoint)
    (hlast : ts.data.getLast? = some last) :
    (ts.Snapshot).Times
      = ts.data.dropLast.map TimePoint.time ++ [ts.roundTime last.time] := by
  have hcat := getLast?_concat_self hlast
  rw [TimeSeries.Snapshot]
  conv_lhs => rw [hcat]
  exact times_concat ts ts.data.dropLast last

/-! ### The time-ordering invariant of `addPoint` -/

/-- `data` is time-ordered ascending (non-strictly). -/
def timeSorted (l : List TimePoint) : Prop :=
  l.Pairwise (fun a b => a.time ≤ b.time)

/-- Every stock aggregator keeps the time of one of its two operands. -/
def aggTimeOk (agg : Option (TimePoint → TimePoint → TimePoint)) : Prop :=
  ∀ f, agg = some f → ∀ l r, (f l r).time = l.time ∨ (f l r).time = r.time

theorem aggTimeOk_none : aggTimeOk none := by
  intro f hf
  simp at hf

theorem aggTimeOk_SUM : aggTimeOk (some SUM) := by
  intro f hf l r
  have : f = SUM := by exact (Option.some_injective _ hf).symm ▸ rfl
  subst this
  rw [SUM]
  split
  · left; rfl
  · right; rfl

theorem roundTime_le_next (ts : TimeSeries) (t : Int) (hd : 0 < ts.interval) :
    ts.roundTime t ≤ goTruncate t ts.interval + ts.interval := by
  by_cases hraw : ts.useRawTime
  · rw [TimeSeries.roundTime, if_pos hraw]
    exact le_of_lt (lt_goTruncate_add t ts.interval hd)
  · rcases roundTime_cases ts t hd (by simpa using hraw) with h | h <;> rw [h] <;> omega

theorem sorted_last_bound (l : List TimePoint) (q : TimePoint)
    (hl : timeSorted l) (hq : l.getLast? = some q) :
    ∀ x ∈ l, x.time ≤ q.time := by
  have hcat := getLast?_concat_self hq
  intro x hx
  rw [hcat] at hl hx
  rw [timeSorted, List.pairwise_append] at hl
  rcases List.mem_append.mp hx with h | h
  · exact hl.2.2 x h q (by simp)
  · rw [List.mem_singleton.mp h]

theorem placeholderRun_time_mem (L d : Int) (k : Nat) (x : TimePoint)
    (hx : x ∈ placeholderRun L d k) :
    ∃ j : Nat, j < k ∧ x.time = L + ((j : Int) + 1) * d := by
  rw [placeholderRun, List.mem_map] at hx
  obtain ⟨j, hj, rfl⟩ := hx
  exact ⟨j, List.mem_range.mp hj, rfl⟩

theorem placeholderRun_sorted (L d : Int) (k : Nat) (hd : 0 < d) :
    timeSorted (placeholderRun L d k) := by
  induction k with
  | zero => exact List.Pairwise.nil
  | succ k ih =>
    rw [placeholderRun_succ, timeSorted, List.pairwise_append]
    refine ⟨ih, List.pairwise_singleton _ _, ?_⟩
    intro a ha b hb
    rw [List.mem_singleton.mp hb]
    obtain ⟨j, hj, hja⟩ := placeholderRun_time_mem L d k a ha
    simp only [hja]
    have : (j : Int) + 1 ≤ (k : Int) + 1 := by push_cast; omega
    nlinarith

theorem placeholderRun_getLast (L d : Int) (k : Nat) (hk : 1 ≤ k) :
    (placeholderRun L d k).getLast?
      = some { time := L + (k : Int) * d, value := 0, count := 0 } := by
  obtain ⟨k', rfl⟩ : ∃ k', k = k' + 1 := ⟨k - 1, by omega⟩
  rw [placeholderRun_succ, List.getLast?_concat]
  push_cast
  rfl

/-- The last element of the data-plus-placeholders list sits at
`last.time + (r - 1)·interval`. -/
theorem dataRun_getLast (data : List TimePoint) (last : TimePoint) (L d : Int)
    (r : Nat) (hlast : data.getLast? = some last) (hL : L = last.time) (hr : 1 ≤ r) :
    ∃ q : TimePoint, (data ++ placeholderRun L d (r - 1)).getLast? = some q ∧
      q.time = last.time + ((r : Int) - 1) * d := by
  by_cases h1 : r = 1
  · subst h1
    refine ⟨last, ?_, by ring⟩
    rw [show (1 : Nat) - 1 = 0 from rfl, placeholderRun_zero, List.append_nil]
    exact hlast
  · have hr2 : 1 ≤ r - 1 := by omega
    refine ⟨{ time := L + ((r : Int) - 1) * d, value := 0, count := 0 }, ?_, by rw [hL]⟩
    have hrun := placeholderRun_getLast L d (r - 1) hr2
    have hcast : ((r - 1 : Nat) : Int) = (r : Int) - 1 := by omega
    rw [hcast] at hrun
    obtain ⟨A, hA⟩ : ∃ A, placeholderRun L d (r - 1)
        = A ++ [{ time := L + ((r : Int) - 1) * d, value := 0, count := 0 }] :=
      ⟨(placeholderRun L d (r - 1)).dropLast, getLast?_concat_self hrun⟩
    rw [hA, ← List.append_assoc, List.getLast?_concat]

theorem append_placeholderRun_sorted (data : List TimePoint) (last : TimePoint)
    (L d : Int) (k : Nat) (hlast : data.getLast? = some last) (hL : L = last.time)
    (hd : 0 < d) (hs : timeSorted data) :
    timeSorted (data ++ placeholderRun L d k) := by
  rw [timeSorted, List.pairwise_append]
  refine ⟨hs, placeholderRun_sorted L d k hd, ?_⟩
  intro a ha b hb
  obtain ⟨j, _, hjb⟩ := placeholderRun_time_mem L d k b hb
  have h1 : a.time ≤ last.time := sorted_last_bound data last hs hlast a ha
  rw [hjb, hL]
  nlinarith [Int.natCast_nonneg j]

theorem roundLast_sorted (ts : TimeSeries) (l : List TimePoint)
    (hl : timeSorted l) (hd : 0 < ts.interval) :
    timeSorted (ts.roundLast l) := by
  rcases List.eq_nil_or_concat l with rfl | ⟨A, x, hcat⟩
  · exact List.Pairwise.nil
  · rw [List.concat_eq_append] at hcat
    subst hcat
    rw [roundLast_concat]
    rw [timeSorted, List.pairwise_append] at hl ⊢
    refine ⟨hl.1, List.pairwise_singleton _ _, ?_⟩
    intro a ha b hb
    rw [List.mem_singleton.mp hb]
    have h1 : a.time ≤ x.time := hl.2.2 a ha x (by simp)
    have h2 : x.time ≤ ts.roundTime x.time := roundTime_ge_self ts x.time hd
    simp only
    omega

/-- The T-indexed invariant: time-ordered data, bounded length, and the
stored last time never ahead of the latest input time `T`. -/
def TSInv (ts : TimeSeries) (T : Int) : Prop :=
  timeSorted ts.data ∧ ((ts.data.length : Int) ≤ ts.maxCount) ∧
  (∀ p, ts.data.getLast? = some p → p.time ≤ T)

theorem getLast?_nil_eq (l : List TimePoint) (h : l.getLast? = none) : l = [] := by
  cases l with
  | nil => rfl
  | cons a t => simp at h

theorem setLast_getLast (l : List TimePoint) (x : TimePoint) (h : l ≠ []) :
    (setLast l x).getLast? = some x := by
  rw [setLast, List.getLast?_concat]

theorem setLast_length (l : List TimePoint) (x : TimePoint) (h : l ≠ []) :
    (setLast l x).length = l.length := by
  have h1 : l.length = l.dropLast.length + 1 := by
    rcases List.eq_nil_or_concat l with rfl | ⟨A, y, hcat⟩
    · exact absurd rfl h
    · rw [List.concat_eq_append] at hcat
      rw [hcat]
      simp
  rw [setLast, List.length_append, List.length_singleton]
  omega

theorem TSInv_addPoint (ts : TimeSeries) (datum : TimePoint) (T : Int)
    (hd : 0 < ts.interval) (hm : 0 < ts.maxCount)
    (hagg : aggTimeOk ts.aggregator)
    (hinv : TSInv ts T) (hT : T ≤ datum.time) :
    TSInv (ts.addPoint datum) datum.time := by
  obtain ⟨hsort, hlen, hlastT⟩ := hinv
  have hint : (ts.addPoint datum).interval = ts.interval := addPoint_interval ts datum
  have hmax : (ts.addPoint datum).maxCount = ts.maxCount := addPoint_maxCount ts datum
  cases hL : ts.data.getLast? with
  | none =>
    have hnil := getLast?_nil_eq ts.data hL
    rw [TSInv, addPoint_empty ts datum hnil, hmax]
    refine ⟨List.pairwise_singleton _ _, by simp; omega, ?_⟩
    intro p hp
    simp at hp
    rw [hp]
  | some last =>
    have hne : ts.data ≠ [] := by
      intro h; rw [h] at hL; simp at hL
    have hlast_le : last.time ≤ T := hlastT last hL
    rcases lt_trichotomy (ts.IntervalBetween last.time datum.time) 0 with hroll | hroll | hroll
    · -- roll < 0: same-bucket branch
      rw [TSInv, addPoint_roll_nonpos ts datum last hL (le_of_lt hroll), hmax]
      have hrepl : ∀ repl : TimePoint,
          (repl.time = last.time ∨ repl.time = datum.time) →
          timeSorted (setLast ts.data repl) ∧
          ((setLast ts.data repl).length : Int) ≤ ts.maxCount ∧
          (∀ p, (setLast ts.data repl).getLast? = some p → p.time ≤ datum.time) := by
        intro repl hreplt
        have hcat := getLast?_concat_self hL
        refine ⟨?_, ?_, ?_⟩
        · rw [setLast]
          rw [hcat] at hsort
          rw [timeSorted, List.pairwise_append] at hsort ⊢
          refine ⟨hsort.1, List.pairwise_singleton _ _, ?_⟩
          intro a ha b hb
          rw [List.mem_singleton.mp hb]
          have h1 : a.time ≤ last.time := hsort.2.2 a ha last (by simp)
          rcases hreplt with h | h <;> rw [h] <;> omega
        · rw [setLast_length ts.data repl hne]
          exact hlen
        · intro p hp
          rw [setLast_getLast ts.data repl hne] at hp
          rw [← Option.some_injective _ hp]
          rcases hreplt with h | h <;> rw [h] <;> omega
      cases hA : ts.aggregator with
      | none => exact hrepl datum (Or.inr rfl)
      | some f => exact hrepl (f last datum) (by
          rcases hagg f hA last datum with h | h
          · exact Or.inl h
          · exact Or.inr h)
    · -- roll = 0: also the same-bucket branch
      rw [TSInv, addPoint_roll_nonpos ts datum last hL (le_of_eq hroll), hmax]
      have hcat := getLast?_concat_self hL
      have hrepl : ∀ repl : TimePoint,
          (repl.time = last.time ∨ repl.time = datum.time) →
          timeSorted (setLast ts.data repl) ∧
          ((setLast ts.data repl).length : Int) ≤ ts.maxCount ∧
          (∀ p, (setLast ts.data repl).getLast? = some p → p.time ≤ datum.time) := by
        intro repl hreplt
        refine ⟨?_, ?_, ?_⟩
        · rw [setLast]
          rw [hcat] at hsort
          rw [timeSorted, List.pairwise_append] at hsort ⊢
          refine ⟨hsort.1, List.pairwise_singleton _ _, ?_⟩
          intro a ha b hb
          rw [List.mem_singleton.mp hb]
          have h1 : a.time ≤ last.time := hsort.2.2 a ha last (by simp)
          rcases hreplt with h | h <;> rw [h] <;> omega
        · rw [setLast_length ts.data repl hne]
          exact hlen
        · intro p hp
          rw [setLast_getLast ts.data repl hne] at hp
          rw [← Option.some_injective _ hp]
          rcases hreplt with h | h <;> rw [h] <;> omega
      cases hA : ts.aggregator with
      | none => exact hrepl datum (Or.inr rfl)
      | some f => exact hrepl (f last datum) (by
          rcases hagg f hA last datum with h | h
          · exact Or.inl h
          · exact Or.inr h)
    · -- 0 < roll
      by_cases hbig : ts.IntervalBetween last.time datum.time ≥ ts.maxCount
      · rw [TSInv, addPoint_reset ts datum last hL hbig hm, hmax]
        refine ⟨List.pairwise_singleton _ _, by simp; omega, ?_⟩
        intro p hp
        simp at hp
        rw [hp]
      · push_neg at hbig
        set roll := ts.IntervalBetween last.time datum.time with hrolldef
        set r := roll.toNat with hrdef
        have hr1 : 1 ≤ r := by omega
        have hclosed := addPoint_gap_closed ts datum last hL hroll hbig hlen
        set F := ts.data ++ placeholderRun last.time ts.interval (r - 1) with hFdef
        obtain ⟨q, hqlast, hqtime⟩ :=
          dataRun_getLast ts.data last last.time ts.interval r hL rfl hr1
        have hFsorted : timeSorted F :=
          append_placeholderRun_sorted ts.data last last.time ts.interval (r - 1) hL rfl hd hsort
        have hFrsorted : timeSorted (ts.roundLast F) := roundLast_sorted ts F hFsorted hd
        -- the rounded last element stays at or below the datum's raw time
        have htrunc : goTruncate datum.time ts.interval - goTruncate last.time ts.interval
            = roll * ts.interval := IntervalBetween_mul ts last.time datum.time hd
        have hq_round : ts.roundTime q.time ≤ datum.time := by
          have h1 : ts.roundTime q.time ≤ goTruncate q.time ts.interval + ts.interval :=
            roundTime_le_next ts q.time hd
          have h2 : goTruncate q.time ts.interval
              = goTruncate last.time ts.interval + ((r : Int) - 1) * ts.interval := by
            rw [hqtime]
            exact goTruncate_add_mul last.time ((r : Int) - 1) ts.interval hd
          have h3 : ((r : Int) = roll) := by omega
          have h4 := goTruncate_le_self datum.time ts.interval hd
          have h5 : goTruncate q.time ts.interval + ts.interval
              = goTruncate datum.time ts.interval := by
            rw [h2]
            rw [h3] at *
            linarith [htrunc]
          omega
        have hFbound : ∀ x ∈ ts.roundLast F, x.time ≤ datum.time := by
          have hcatF := getLast?_concat_self hqlast
          intro x hx
          rw [hFdef] at hx
          rw [hcatF, roundLast_concat] at hx
          rcases List.mem_append.mp hx with h | h
          · have hxF : x ∈ F := by
              rw [hFdef, hcatF]
              exact List.mem_append.mpr (Or.inl h)
            have h1 : x.time ≤ q.time := sorted_last_bound F q hFsorted hqlast x hxF
            have h2 : q.time ≤ ts.roundTime q.time := roundTime_ge_self ts q.time hd
            omega
          · rw [List.mem_singleton.mp h]
            exact hq_round
        rw [TSInv, hclosed, hmax]
        refine ⟨?_, ?_, ?_⟩
        · apply List.Pairwise.sublist (List.drop_sublist _ _)
          rw [List.pairwise_append]
          exact ⟨hFrsorted, List.pairwise_singleton _ _,
            fun a ha b hb => by rw [List.mem_singleton.mp hb]; exact hFbound a ha⟩
        · rw [length_lastK]
          have := Int.toNat_of_nonneg (le_of_lt hm)
          omega
        · intro p hp
          have hk1 : 1 ≤ min (ts.data.length + r) ts.maxCount.toNat := by
            have h1 : 1 ≤ ts.data.length := List.length_pos.mpr hne
            refine le_min (by omega) (by omega)
          rw [lastK_concat _ hk1, List.getLast?_concat] at hp
          rw [← Option.some_injective _ hp]

section TimeSeriesExamples

/-- The gap-filling scenario of `TestTimeseries` scaled to integers:
interval 10, maxCount 10, one point at raw time 0, new datum at raw time 25
(`roll = 2`). -/
def tsGap : TimeSeries :=
  { data := [⟨0, 1, 1⟩], interval := 10, maxCount := 10,
    aggregator := none, useRawTime := false }

example : (tsGap.addPoint ⟨25, 2, 1⟩).data = [⟨0, 1, 1⟩, ⟨20, 0, 0⟩, ⟨25, 2, 1⟩] := by
  with_unfolding_all decide

example : ((NewTimeSeries 10 10 none).AddTime 5 1 |>.AddTime 15 2).data.map TimePoint.time
    = [10, 15] := by with_unfolding_all decide

end TimeSeriesExamples

/-- Folding `AddTime` over non-decreasing inputs keeps the whole invariant;
the ordering conclusion is what claim C6 is amended to. -/
theorem addAllTimes_inv : ∀ (xs : List (Int × ℚ)) (ts : TimeSeries) (T : Int),
    0 < ts.interval → 0 < ts.maxCount → aggTimeOk ts.aggregator →
    TSInv ts T → (∀ p ∈ xs, T ≤ p.1) →
    xs.Pairwise (fun a b => a.1 ≤ b.1) →
    timeSorted (addAllTimes ts xs).data := by
  intro xs
  induction xs with
  | nil => intro ts T _ _ _ hinv _ _; exact hinv.1
  | cons x rest ih =>
    intro ts T hd hm hagg hinv hall hpair
    rw [List.pairwise_cons] at hpair
    have h1 : TSInv (ts.AddTime x.1 x.2) x.1 :=
      TSInv_addPoint ts ⟨x.1, x.2, 1⟩ T hd hm hagg hinv (hall x (List.mem_cons_self _ _))
    have hint : (ts.AddTime x.1 x.2).interval = ts.interval := addPoint_interval ts _
    have hmax : (ts.AddTime x.1 x.2).maxCount = ts.maxCount := addPoint_maxCount ts _
    have haggp : (ts.AddTime x.1 x.2).aggregator = ts.aggregator := addPoint_aggregator ts _
    show timeSorted (addAllTimes (ts.AddTime x.1 x.2) rest).data
    apply ih (ts.AddTime x.1 x.2) x.1 (by rw [hint]; exact hd) (by rw [hmax]; exact hm)
      (by rw [haggp]; exact hagg) h1 hpair.1 hpair.2

section Claims

/-- C1: for every sequence of `Add` calls on a histogram constructed with
`NewHistogram maxBins`, after every `Add` (i.e. after folding any list of
samples) the number of bins is at most `maxBins` when `maxBins > 0`, and at
most 100 when `maxBins ≤ 0` (the budget silently becomes 100 on the first
trim). -/
theorem histogram_bins_bounded (m0 : Int) (vs : List ℚ) :
    ((addAll m0 vs).bins.length : Int) ≤ (if m0 ≤ 0 then 100 else m0) := by
  have h := (HInv_addAll m0 vs).2.1
  rw [effMax] at h
  exact h

/-- C3: on every histogram reachable by a sequence of `Add` calls,
`Quantile` is monotone non-decreasing in `q` over `[0, 1]`. -/
theorem quantile_monotone (m0 : Int) (vs : List ℚ) (q1 q2 : ℚ)
    (h0 : 0 ≤ q1) (h12 : q1 ≤ q2) (h21 : q2 ≤ 1) :
    (addAll m0 vs).Quantile q1 ≤ (addAll m0 vs).Quantile q2 := by
  obtain ⟨_, _, hs, _, hsum, htot⟩ := HInv_addAll m0 vs
  rw [Histogram.Quantile, Histogram.Quantile, Histogram.bin, Histogram.bin]
  apply binWalk_mono _ hs
  · exact mul_le_mul_of_nonneg_right h12 htot
  · rw [hsum]
    calc q2 * (addAll m0 vs).total ≤ 1 * (addAll m0 vs).total :=
          mul_le_mul_of_nonneg_right h21 htot
      _ = (addAll m0 vs).total := one_mul _

/-- Witness for C3 at a concrete histogram and pair of quantiles. -/
theorem quantile_monotone_witness :
    (0 : ℚ) ≤ 1/4 ∧ (1/4 : ℚ) ≤ 3/4 ∧ (3/4 : ℚ) ≤ 1 ∧
    (addAll 100 [1, 2]).Quantile (1/4) ≤ (addAll 100 [1, 2]).Quantile (3/4) :=
  ⟨by norm_num, by norm_num, by norm_num,
    quantile_monotone 100 [1, 2] (1/4) (3/4) (by norm_num) (by norm_num) (by norm_num)⟩

/-- C8: for every histogram state and every argument list, `Quantiles`
returns one entry per requested quantile, in argument order, each equal to
the corresponding single-quantile `Quantile` call. -/
theorem quantiles_eq_map_quantile (h : Histogram) (qs : List ℚ) :
    h.Quantiles qs = qs.map h.Quantile ∧ (h.Quantiles qs).length = qs.length := by
  have hmain : h.Quantiles qs = qs.map h.Quantile := by
    rw [Histogram.Quantiles, qloop_eq_map_qwalk, List.map_map, List.map_map]
    apply List.map_congr_left
    intro q _
    simp only [Function.comp_apply]
    exact qwalk_fst_eq_binWalk h.bins (q * h.total)
  exact ⟨hmain, by rw [hmain, List.length_map]⟩

/-- The bins produced by adding 1..100 into a 50-bin histogram: fifty bins
of weight 2 at 1.5, 3.5, …, 99.5. -/
def bins50 : List Bin := (List.range 50).map (fun (k : Nat) => ⟨(4 * (k : ℚ) + 3) / 2, 2⟩)

set_option maxRecDepth 1000000 in
set_option maxHeartbeats 8000000 in
theorem addAll50_eq : addAll 50 oneTo100 = ⟨50, bins50, 100⟩ := by
  with_unfolding_all rfl

/-- C4: adding the samples 1.0 … 100.0 in order to a histogram with
`maxBins = 50` (whose trim merges the adjacent pair of smallest value gap,
earliest index on ties, into a count-weighted mean) yields exactly
`Quantile 0.50 = 49.5`, `Quantile 0.90 = 89.5` and `Quantile 0.999 = 99.5`. -/
theorem histogram50_quantiles :
    (addAll 50 oneTo100).Quantile (1/2) = 99/2 ∧
    (addAll 50 oneTo100).Quantile (9/10) = 179/2 ∧
    (addAll 50 oneTo100).Quantile (999/1000) = 199/2 := by
  refine ⟨?_, ?_, ?_⟩ <;> rw [addAll50_eq] <;> with_unfolding_all rfl

/-- C10: `Values()` on a series holding no stored points indexes slot
`len-1 = -1` and panics (modelled as `none`), while `Last`, `LastN` and
`After` on the same empty series return empty results without failing. -/
theorem values_empty_panics (ts : TimeSeries) (h : ts.data = []) :
    ts.Values = none ∧ ts.Last = (0, 0) ∧
    (∀ n : Int, ts.LastN n = ([], [])) ∧ (∀ t : Int, ts.After t = ([], [])) := by
  refine ⟨?_, ?_, ?_, ?_⟩
  · rw [TimeSeries.Values, h]
    rfl
  · rw [TimeSeries.Last, TimeSeries.LastN, h]
    rfl
  · intro n
    rw [TimeSeries.LastN, h]
    simp
  · intro t
    exact After_empty ts t h

/-- Witness for C10 on a concrete freshly constructed series. -/
theorem values_empty_panics_witness :
    (NewTimeSeries 10 10 none).Values = none ∧
    (NewTimeSeries 10 10 none).Last = (0, 0) ∧
    (∀ n : Int, (NewTimeSeries 10 10 none).LastN n = ([], [])) ∧
    (∀ t : Int, (NewTimeSeries 10 10 none).After t = ([], [])) :=
  values_empty_panics (NewTimeSeries 10 10 none) rfl

/-- C5: on a non-empty series, an `addPoint` whose bucket gap
`IntervalBetween(last.time, datum.time)` reaches `maxCount` discards all
stored points and keeps only the new datum; in particular any raw time jump
of at least `maxCount·interval` causes this reset. -/
theorem timeseries_full_reset (ts : TimeSeries) (datum last : TimePoint)
    (hlast : ts.data.getLast? = some last)
    (hd : 0 < ts.interval) (hm : 0 < ts.maxCount) :
    (ts.IntervalBetween last.time datum.time ≥ ts.maxCount →
      (ts.addPoint datum).data = [datum]) ∧
    (datum.time - last.time ≥ ts.maxCount * ts.interval →
      (ts.addPoint datum).data = [datum]) := by
  constructor
  · intro hroll
    exact addPoint_reset ts datum last hlast hroll hm
  · intro hjump
    exact addPoint_reset ts datum last hlast
      (IntervalBetween_ge_of_jump ts last.time datum.time ts.maxCount hd hjump) hm

/-- Witness for C5: interval 10, three slots, one point at time 0; a datum
at time 35 (gap of 3 buckets, raw jump 35 ≥ 30) resets the series. -/
theorem timeseries_full_reset_witness :
    ((⟨[⟨0, 1, 1⟩], 10, 3, none, false⟩ : TimeSeries).addPoint ⟨35, 2, 1⟩).data
      = [⟨35, 2, 1⟩] :=
  (timeseries_full_reset ⟨[⟨0, 1, 1⟩], 10, 3, none, false⟩ ⟨35, 2, 1⟩ ⟨0, 1, 1⟩
    rfl (by norm_num) (by norm_num)).2 (by norm_num)

/-- C2 counterexample: with one stored point at raw time 0 (interval 10,
rounding enabled), adding a datum two buckets later leaves the previous last
point's stored time at its raw value 0 — not at its rounded boundary 10 as
the claim requires — and stores the final placeholder at 20, the rounded
value of its raw slot time 10. -/
theorem gap_fill_rounding_cex :
    (tsGap.addPoint ⟨25, 2, 1⟩).data.map TimePoint.time = [0, 20, 25] ∧
    tsGap.roundTime 0 = 10 ∧ (0 : Int) ≠ 10 := by
  refine ⟨by with_unfolding_all decide, by decide, by decide⟩

/-- C2 amended: for `0 < roll < maxCount` on a non-empty, within-budget
series, the stored data becomes the newest `min (n + roll) maxCount` entries
of: the old data followed by the `roll - 1` placeholders (`count = 0`, times
`last.time + k·interval`), with the entry that is then last — the final
placeholder when `roll ≥ 2`, the old last point when `roll = 1` — given its
rounded stored time, and the new datum appended after it. -/
theorem gap_fill_closed_form (ts : TimeSeries) (datum last : TimePoint)
    (hlast : ts.data.getLast? = some last)
    (h0 : 0 < ts.IntervalBetween last.time datum.time)
    (hm : ts.IntervalBetween last.time datum.time < ts.maxCount)
    (hlen : (ts.data.length : Int) ≤ ts.maxCount) :
    (ts.addPoint datum).data
      = lastK (min (ts.data.length + (ts.IntervalBetween last.time datum.time).toNat)
            ts.maxCount.toNat)
          (ts.roundLast (ts.data ++ placeholderRun last.time ts.interval
              ((ts.IntervalBetween last.time datum.time).toNat - 1)) ++ [datum]) :=
  addPoint_gap_closed ts datum last hlast h0 hm hlen

/-- Witness for the amended C2 on the concrete gap scenario. -/
theorem gap_fill_closed_form_witness :
    (tsGap.addPoint ⟨25, 2, 1⟩).data
      = lastK (min (tsGap.data.length + (tsGap.IntervalBetween 0 25).toNat)
            tsGap.maxCount.toNat)
          (tsGap.roundLast (tsGap.data ++ placeholderRun 0 tsGap.interval
              ((tsGap.IntervalBetween 0 25).toNat - 1)) ++ [⟨25, 2, 1⟩]) :=
  gap_fill_closed_form tsGap ⟨25, 2, 1⟩ ⟨0, 1, 1⟩ rfl
    (by with_unfolding_all decide) (by with_unfolding_all decide) (by decide)

/-- C6 counterexample: interval 10, 10 slots, no aggregator; adding points
at times 5 then 15 (non-decreasing, bucket gap 1, so no full reset) stores
times 10 and 15, which are 5 — not one interval — apart. -/
theorem consecutive_spacing_cex :
    (addAllTimes (NewTimeSeries 10 10 none) [(5, 1), (15, 2)]).data.map TimePoint.time
        = [10, 15] ∧
    (NewTimeSeries 10 10 none).IntervalBetween 5 15 = 1 ∧
    (15 : Int) - 10 ≠ 10 := by
  refine ⟨by with_unfolding_all decide, by decide, by decide⟩

/-- C6 amended: for every sequence of `AddTime` calls with non-decreasing
times on a freshly constructed series (positive interval and capacity,
aggregator keeping one operand's time), the stored data remains time-ordered
ascending; the claimed exactly-one-interval spacing of consecutive stored
points does not hold (see the counterexample). -/
theorem addTimes_sorted (d m : Int) (agg : Option (TimePoint → TimePoint → TimePoint))
    (xs : List (Int × ℚ)) (hd : 0 < d) (hm : 0 < m) (hagg : aggTimeOk agg)
    (hpair : xs.Pairwise (fun a b => a.1 ≤ b.1)) :
    timeSorted (addAllTimes (NewTimeSeries d m agg) xs).data := by
  cases xs with
  | nil => exact List.Pairwise.nil
  | cons x rest =>
    rw [List.pairwise_cons] at hpair
    apply addAllTimes_inv (x :: rest) (NewTimeSeries d m agg) x.1 hd hm hagg
    · exact ⟨List.Pairwise.nil, by simp [NewTimeSeries]; omega, by
        intro p hp
        rw [NewTimeSeries] at hp
        simp at hp⟩
    · intro p hp
      rcases List.mem_cons.mp hp with h | h
      · rw [h]
      · exact hpair.1 p h
    · exact List.Pairwise.cons hpair.1 hpair.2

/-- Witness for the amended C6 on the counterexample inputs. -/
theorem addTimes_sorted_witness :
    timeSorted (addAllTimes (NewTimeSeries 10 10 none) [(5, 1), (15, 2)]).data :=
  addTimes_sorted 10 10 none [(5, 1), (15, 2)] (by norm_num) (by norm_num)
    aggTimeOk_none (by norm_num)

/-- C7 counterexample: a series with one point at raw time 12 (interval 10,
rounding enabled) reports its last timestamp as 20 — the next boundary via
`(t + interval/2).Round(interval)` — whereas `(t + interval/2)` truncated to
a boundary is 10. -/
theorem reported_time_not_truncated :
    (⟨[⟨12, 1, 1⟩], 10, 5, none, false⟩ : TimeSeries).Values = some ([20], [1]) ∧
    goTruncate (12 + (10 : Int).tdiv 2) 10 = 10 ∧ (20 : Int) ≠ 10 := by
  refine ⟨by with_unfolding_all decide, by decide, by decide⟩

/-- C7 amended: every query and render operation on a non-empty series
reports the last stored point's timestamp as `roundTime` of its raw time —
`(t + interval/2)` rounded to the nearest boundary with halves up, which for
an even positive interval is the next boundary `truncate(t) + interval`, and
`t` itself when `useRawTime` — and reports all earlier points' timestamps as
stored. -/
theorem reported_last_timestamp (ts : TimeSeries) (last : TimePoint)
    (hlast : ts.data.getLast? = some last) :
    ts.Values = some ((ts.data.map TimePoint.time).dropLast ++ [ts.roundTime last.time],
        ts.data.map TimePoint.value) ∧
    ts.stringEntries
      = ts.data.dropLast.map (fun p => (p.time, if p.count = 0 then none else some p.value))
        ++ [(ts.roundTime last.time, if last.count = 0 then none else some last.value)] ∧
    (ts.Snapshot).Times = ts.data.dropLast.map TimePoint.time ++ [ts.roundTime last.time] ∧
    ts.Last = (ts.roundTime last.time, last.value) ∧
    (∀ n : Int, 0 < n →
      ts.LastN n
        = (((ts.data.drop (max ((ts.data.length : Int) - n) 0).toNat).map TimePoint.time).dropLast
              ++ [ts.roundTime last.time],
           (ts.data.drop (max ((ts.data.length : Int) - n) 0).toNat).map TimePoint.value)) ∧
    (∀ (t : Int) (idx : Nat),
      ts.data.findIdx? (fun p => decide (p.time ≥ t - ts.interval.tdiv 2)) = some idx →
      ts.After t
        = (((ts.data.drop idx).map TimePoint.time).dropLast ++ [ts.roundTime last.time],
           (ts.data.drop idx).map TimePoint.value)) ∧
    (ts.useRawTime = true → ts.roundTime last.time = last.time) ∧
    (ts.useRawTime = false → 0 < ts.interval → 2 ∣ ts.interval →
      ts.roundTime last.time = goTruncate last.time ts.interval + ts.interval) := by
  refine ⟨Values_eq ts last hlast, stringEntries_eq ts last hlast,
    snapshot_times_eq ts last hlast, Last_eq ts last hlast,
    fun n hn => LastN_eq ts last n hlast hn,
    fun t idx hidx => After_eq ts last t idx hlast hidx, ?_, ?_⟩
  · intro hraw
    rw [TimeSeries.roundTime, if_pos hraw]
  · intro hraw hd hev
    exact roundTime_eq_next ts last.time hd hraw hev

/-- Witness for the amended C7 on a one-point series at raw time 12. -/
theorem reported_last_timestamp_witness :
    ((⟨[⟨12, 1, 1⟩], 10, 5, none, false⟩ : TimeSeries).Values
        = some (([⟨12, 1, 1⟩].map TimePoint.time).dropLast
            ++ [(⟨[⟨12, 1, 1⟩], 10, 5, none, false⟩ : TimeSeries).roundTime 12],
          [⟨12, 1, 1⟩].map TimePoint.value)) ∧
    (⟨[⟨12, 1, 1⟩], 10, 5, none, false⟩ : TimeSeries).Last
      = ((⟨[⟨12, 1, 1⟩], 10, 5, none, false⟩ : TimeSeries).roundTime 12, 1) := by
  have h := reported_last_timestamp ⟨[⟨12, 1, 1⟩], 10, 5, none, false⟩ ⟨12, 1, 1⟩ rfl
  exact ⟨h.1, h.2.2.2.1⟩

end Claims



end Metric
